import Mathlib

/-!
Shallow embedding of the core of the `reading-ecology` IELTS reading-practice
application (`src/index.tsx`): the Leitner spaced-repetition scheduler, the
click-to-translate tokenizer and key normalization, the vocabulary store, the
review-session construction, the quiz session state machine, and the
persistence load path.  JavaScript numbers that the program only ever uses as
non-negative integers (timestamps, box indices, scores) are modelled as `Nat`.
-/

namespace ReadingEcology

/-! ## Character classes (JavaScript regex semantics)

`jsWhitespace` models the JavaScript `\s` class (and the character set removed
by `String.prototype.trim`): space, the control whitespace characters, NBSP,
Ogham space, the U+2000–U+200A range, line/paragraph separators, U+202F,
U+205F, ideographic space and the BOM. -/

def jsWhitespace (c : Char) : Bool :=
  let v := c.toNat
  v == 0x9 || v == 0xA || v == 0xB || v == 0xC || v == 0xD || v == 0x20 ||
  v == 0xA0 || v == 0x1680 || (decide (0x2000 ≤ v) && decide (v ≤ 0x200A)) ||
  v == 0x2028 || v == 0x2029 || v == 0x202F || v == 0x205F || v == 0x3000 ||
  v == 0xFEFF

/-- The character class `[\wА-Яа-я]` of the cleanup regex in
`splitParagraphIntoWords` / `TranslationModal`: ASCII letters, digits,
underscore, and the Cyrillic ranges U+0410–U+042F and U+0430–U+044F. -/
def isWordChar (c : Char) : Bool :=
  let v := c.toNat
  (decide (0x41 ≤ v) && decide (v ≤ 0x5A)) ||
  (decide (0x61 ≤ v) && decide (v ≤ 0x7A)) ||
  (decide (0x30 ≤ v) && decide (v ≤ 0x39)) ||
  v == 0x5F ||
  (decide (0x410 ≤ v) && decide (v ≤ 0x42F)) ||
  (decide (0x430 ≤ v) && decide (v ≤ 0x44F))

/-- The one-to-one mappings of `String.prototype.toLowerCase` that matter
here: ASCII `A`–`Z`, Cyrillic `А`–`Я` (both lower by adding 0x20), `Ё`
(U+0401 → U+0451), and the Kelvin sign `K` (U+212A → `k` U+006B) — the one
other character whose simple lowercase form is a `[\wА-Яа-я]` word
character.  Every remaining Unicode lowercase mapping starts and ends
outside that class and is modelled as the identity. -/
def charLower (c : Char) : Char :=
  if 0x41 ≤ c.toNat ∧ c.toNat ≤ 0x5A then Char.ofNat (c.toNat + 0x20)
  else if 0x410 ≤ c.toNat ∧ c.toNat ≤ 0x42F then Char.ofNat (c.toNat + 0x20)
  else if c.toNat = 0x401 then Char.ofNat 0x451
  else if c.toNat = 0x212A then Char.ofNat 0x6B
  else c

/-- Per-character `toLowerCase` including the one multi-character special
mapping that produces a word character: `İ` (U+0130) lowercases to `i`
followed by the combining dot U+0307. -/
def charLowerL (c : Char) : List Char :=
  if c.toNat = 0x130 then [Char.ofNat 0x69, Char.ofNat 0x307]
  else [charLower c]

def strLowerL (cs : List Char) : List Char := cs.flatMap charLowerL

def strLower (s : String) : String := ⟨strLowerL s.data⟩

/-! ## Key normalization (`cleanWord`)

`segment.toLowerCase().replace(/['’]s$/, '').replace(/^[^\wА-Яа-я]+|[^\wА-Яа-я]+$/g, '')`
from `splitParagraphIntoWords` (src/index.tsx:35) and `TranslationModal`
(src/index.tsx:229). -/

/-- `.replace(/['’]s$/, '')`: drop a final `'s` or `’s`. -/
def stripPossL (cs : List Char) : List Char :=
  match cs.reverse with
  | 's' :: q :: rest =>
      if q = '\'' ∨ q = '’' then rest.reverse else cs
  | _ => cs

/-- `.replace(/^[^\wА-Яа-я]+|[^\wА-Яа-я]+$/g, '')`: drop the maximal leading
and trailing runs of non-word characters. -/
def stripOuterL (cs : List Char) : List Char :=
  (cs.dropWhile fun c => !isWordChar c).rdropWhile fun c => !isWordChar c

def cleanWordL (cs : List Char) : List Char :=
  stripOuterL (stripPossL (strLowerL cs))

def cleanWord (s : String) : String := ⟨cleanWordL s.data⟩

/-- Does the string end in the possessive pattern `['’]s` that
`stripPossL` removes? -/
def endsPossL (cs : List Char) : Bool :=
  match cs.reverse with
  | 's' :: q :: _ => q = '\'' ∨ q = '’'
  | _ => false

/-! ## Tokenizer (`splitParagraphIntoWords`, src/index.tsx:30–38) -/

/-- `text.split(/(\s+)/)` on the character list: alternating (possibly empty)
non-whitespace chunks and the captured whitespace runs, beginning and ending
with a chunk, exactly as JavaScript `split` with a capturing group yields. -/
def splitWsL (cs : List Char) : List (List Char) :=
  match h : cs.dropWhile fun c => !jsWhitespace c with
  | [] => [cs.takeWhile fun c => !jsWhitespace c]
  | a :: t =>
      (cs.takeWhile fun c => !jsWhitespace c) ::
        ((a :: t).takeWhile jsWhitespace) :: splitWsL ((a :: t).dropWhile jsWhitespace)
  termination_by cs.length
  decreasing_by
    have h1 : (cs.dropWhile fun c => !jsWhitespace c).length ≤ cs.length :=
      List.Sublist.length_le (List.dropWhile_sublist _)
    have ha : jsWhitespace a = true := by
      have hw := List.head_dropWhile_not (fun c => !jsWhitespace c) cs
        (by rw [h]; simp)
      revert hw
      have hh : (cs.dropWhile fun c => !jsWhitespace c).head (by rw [h]; simp) = a := by
        simp [h]
      rw [hh]
      simp
    rw [h] at h1
    have h2 : ((a :: t).dropWhile jsWhitespace).length ≤ t.length := by
      rw [List.dropWhile_cons_of_pos ha]
      exact List.Sublist.length_le (List.dropWhile_sublist _)
    simp at h1
    omega

/-- `segment.trim()`, with JavaScript's whitespace set. -/
def jsTrimL (cs : List Char) : List Char :=
  (cs.dropWhile jsWhitespace).rdropWhile jsWhitespace

/-- One display segment produced by the tokenizer: the original slice, its
index, whether it is clickable, and (for word segments) the lookup key. -/
structure Segment where
  text : String
  id : Nat
  isWord : Bool
  word : Option String
  deriving Repr, DecidableEq

/-- The body of the `.map((segment, i) => ...)` in `splitParagraphIntoWords`:
whitespace-only segments are non-words; anything else carries the normalized
lookup key. -/
def segmentToItem (i : Nat) (seg : String) : Segment :=
  if jsTrimL seg.data = [] then
    { text := seg, id := i, isWord := false, word := none }
  else
    { text := seg, id := i, isWord := true, word := some (cleanWord seg) }

def splitParagraphIntoWords (text : String) : List Segment :=
  (splitWsL text.data).enum.map fun p => segmentToItem p.1 ⟨p.2⟩

/-! ## Spaced-repetition scheduler (src/index.tsx:22–27, 61–67) -/

def REVIEW_INTERVALS : List Nat := [0, 1, 3, 7, 14, 30]

/-- `getNextReviewDate` with `Date.now()` made an explicit `now` argument. -/
def getNextReviewDate (now : Nat) (box : Nat) : Nat :=
  let days := REVIEW_INTERVALS.getD (min box (REVIEW_INTERVALS.length - 1)) 0
  now + days * 24 * 60 * 60 * 1000

/-- A saved vocabulary word (`SavedWord` in src/types).  The optional
`definition`/`synonyms` fields are always populated by the save path and are
modelled as plain fields. -/
structure SavedWord where
  id : String
  word : String
  translation : String
  definition : String
  synonyms : List String
  context : String
  timestamp : Nat
  leitnerBox : Nat
  nextReview : Nat
  deriving Repr, DecidableEq

/-- The per-word body of `handleUpdateWordProgress` (src/index.tsx:62–66). -/
def updateWord (w : SavedWord) (success : Bool) (now : Nat) : SavedWord :=
  let newBox := if success then min (w.leitnerBox + 1) (REVIEW_INTERVALS.length - 1) else 0
  { w with leitnerBox := newBox, nextReview := getNextReviewDate now newBox }

/-- `handleUpdateWordProgress` (src/index.tsx:61–67): map over the store,
updating the word whose id matches. -/
def handleUpdateWordProgress (words : List SavedWord) (i : String) (success : Bool)
    (now : Nat) : List SavedWord :=
  words.map fun w => if w.id ≠ i then w else updateWord w success now

/-! ## Vocabulary store (src/index.tsx:54–59, 468, 502) -/

/-- `handleSaveWord` (src/index.tsx:54–59): no-op if a word with the same
lowercased key exists, else append. -/
def handleSaveWord (prev : List SavedWord) (newWord : SavedWord) : List SavedWord :=
  if prev.any fun w => strLower w.word = strLower newWord.word then prev
  else prev ++ [newWord]

/-- `words.filter(w => w.nextReview <= Date.now())` (src/index.tsx:468). -/
def dueWords (words : List SavedWord) (now : Nat) : List SavedWord :=
  words.filter fun w => w.nextReview ≤ now

/-- `[...words].sort(() => 0.5 - Math.random())` (src/index.tsx:502): the
review-session deck.  The random comparator is abstracted as the parameter
`cmp`; any ECMAScript `Array.prototype.sort`, whatever order it settles on
under an inconsistent comparator, returns a rearrangement of the input, which
insertion sort by `cmp` models. -/
def reviewSession (words : List SavedWord) (cmp : SavedWord → SavedWord → Bool) :
    List SavedWord :=
  List.insertionSort (fun a b => cmp a b = true) words

/-! ## Dictionary lookup and the translation modal (src/index.tsx:225–320)

The pre-baked dictionary lives in `constants.ts`, which is not among the
provided sources; it is taken as a parameter `dict`.  A dictionary entry has
the `t`/`d`/`s` fields the modal reads. -/

structure DictEntry where
  t : String
  d : String
  s : List String
  deriving Repr, DecidableEq

structure TranslationData where
  translation : String
  definition : String
  synonyms : List String
  deriving Repr, DecidableEq

/-- The `data` computed by `TranslationModal` (src/index.tsx:230–241): look up
the re-cleaned word; on a miss, synthesize the offline fallback record. -/
def translationData (dict : String → Option DictEntry) (word : String) :
    TranslationData :=
  match dict (cleanWord word) with
  | some entry => { translation := entry.t, definition := entry.d, synonyms := entry.s }
  | none =>
      { translation := "Перевод для \"" ++ word ++ "\""
        definition := "Tap to save and review later."
        synonyms := [] }

/-- The `SavedWord` the modal's save button commits (src/index.tsx:297–307),
with `crypto.randomUUID()` and `Date.now()` as explicit arguments. -/
def buildSavedWord (dict : String → Option DictEntry) (word : String)
    (context : String) (uuid : String) (now : Nat) : SavedWord :=
  let data := translationData dict word
  { id := uuid, word := cleanWord word, translation := data.translation
    definition := data.definition, synonyms := data.synonyms, context := context
    timestamp := now, leitnerBox := 0, nextReview := now }

/-! ## Quiz session state machine (`QuizView`, src/index.tsx:322–365) -/

structure QuizItem where
  word : String
  question : String
  options : List String
  correctAnswerIndex : Nat
  explanation : String
  deriving Repr, DecidableEq, Inhabited

/-- The fields of a reading passage the quiz flow reads (full passages live in
`constants.ts`, outside the provided sources). -/
structure Passage where
  id : Nat
  title : String
  offlineQuiz : Option (List QuizItem)
  deriving Repr, DecidableEq

inductive QuizStage where
  | SETUP | LOADING | PLAYING | RESULT
  deriving Repr, DecidableEq

/-- The `QuizView` component state that the quiz handlers read and write. -/
structure QuizState where
  stage : QuizStage
  questions : List QuizItem
  currentQIndex : Nat
  score : Nat
  selectedOption : Option Nat
  isAnswered : Bool
  deriving Repr, DecidableEq

/-- The initial `useState` values of `QuizView` (src/index.tsx:323–329). -/
def initQuizState : QuizState :=
  { stage := .SETUP, questions := [], currentQIndex := 0, score := 0
    selectedOption := none, isAnswered := false }

/-- `generateQuiz` (src/index.tsx:332–345) together with the `setTimeout`
completion: if no passage matches, nothing changes; otherwise the stage is set
to `LOADING`, and only when the passage has a pre-baked `offlineQuiz` does the
delayed continuation install the shuffled questions and enter `PLAYING`.  The
random shuffle comparator is the explicit parameter `cmp`. -/
def generateQuiz (passages : List Passage) (selectedPassageId : Nat)
    (cmp : QuizItem → QuizItem → Bool) (s : QuizState) : QuizState :=
  match passages.find? fun p => p.id = selectedPassageId with
  | none => s
  | some passage =>
      let s1 := { s with stage := .LOADING }
      match passage.offlineQuiz with
      | none => s1
      | some items =>
          { s1 with
            questions := List.insertionSort (fun a b => cmp a b = true) items
            stage := .PLAYING, currentQIndex := 0, score := 0
            selectedOption := none, isAnswered := false }

/-- `nextQuestion` (src/index.tsx:347–356).  The JavaScript guard
`currentQIndex < questions.length - 1` is over signed numbers and is rendered
as `currentQIndex + 1 < questions.length`. -/
def nextQuestion (s : QuizState) : QuizState :=
  if s.currentQIndex + 1 < s.questions.length then
    { s with currentQIndex := s.currentQIndex + 1, selectedOption := none
             isAnswered := false }
  else
    { s with stage := .RESULT }

/-- `handleSelectAnswer` (src/index.tsx:358–365).  The source indexes
`questions[currentQIndex]` unchecked; `getD` supplies a dummy at the
out-of-range indices where the JavaScript would instead throw, and the
transition relations below only invoke this with the index in range. -/
def handleSelectAnswer (s : QuizState) (idx : Nat) : QuizState :=
  if s.isAnswered then s
  else
    let correct :=
      idx = (s.questions.getD s.currentQIndex default).correctAnswerIndex
    { s with selectedOption := some idx, isAnswered := true
             score := if correct then s.score + 1 else s.score }

/-- One user-driven transition of `QuizView`: pressing start in `SETUP`,
choosing an option in `PLAYING`, or advancing in `PLAYING` (manually or via
the auto-advance timer).  Answering requires the current index to be in range,
since the source would throw otherwise. -/
inductive QuizStep (passages : List Passage) : QuizState → QuizState → Prop where
  | start (s : QuizState) (selId : Nat) (cmp : QuizItem → QuizItem → Bool)
      (hs : s.stage = .SETUP) :
      QuizStep passages s (generateQuiz passages selId cmp s)
  | answer (s : QuizState) (idx : Nat) (hs : s.stage = .PLAYING)
      (hq : s.currentQIndex < s.questions.length) :
      QuizStep passages s (handleSelectAnswer s idx)
  | advance (s : QuizState) (hs : s.stage = .PLAYING) :
      QuizStep passages s (nextQuestion s)

/-- States reachable from a freshly started `PLAYING` session, paired with the
number of answer actions that were actually accepted so far (an accepted
answer is one made while `isAnswered` was still false). -/
inductive ReachPlay : QuizState → Nat → Prop where
  | start (items qs : List QuizItem) (hperm : qs.Perm items) :
      ReachPlay
        { stage := .PLAYING, questions := qs, currentQIndex := 0, score := 0
          selectedOption := none, isAnswered := false } 0
  | answer (s : QuizState) (n : Nat) (idx : Nat) (h : ReachPlay s n)
      (hs : s.stage = .PLAYING) (hq : s.currentQIndex < s.questions.length) :
      ReachPlay (handleSelectAnswer s idx) (if s.isAnswered then n else n + 1)
  | advance (s : QuizState) (n : Nat) (h : ReachPlay s n)
      (hs : s.stage = .PLAYING) :
      ReachPlay (nextQuestion s) n

/-! ## Persistence load path (src/index.tsx:43–46)

`localStorage.getItem` returns the stored payload or `null`; the component
then evaluates `saved ? JSON.parse(saved) : []`.  `JSON.parse` /
`JSON.stringify` are platform collaborators; they are modelled on the value
space the application actually stores — a JSON array of saved-word objects
with the nine fields written in the order the save path creates them, string
fields containing no characters that `JSON.stringify` escapes (no quote, no
backslash, no control characters) and integer number fields.  A parse failure
is `none`: the exception propagates out of the `useState` initializer. -/

def isPlainChar (c : Char) : Bool :=
  decide (0x20 ≤ c.toNat) && c ≠ '"' && c ≠ '\\'

def isPlainStr (s : String) : Bool := s.data.all isPlainChar

def plainWord (w : SavedWord) : Bool :=
  isPlainStr w.id && isPlainStr w.word && isPlainStr w.translation &&
  isPlainStr w.definition && w.synonyms.all isPlainStr && isPlainStr w.context

def digitChar (n : Nat) : Char := Char.ofNat (0x30 + n)

/-- Decimal digits of `n`, most significant first. -/
def natDigits (n : Nat) : List Char :=
  if h : n < 10 then [digitChar n]
  else natDigits (n / 10) ++ [digitChar (n % 10)]
  termination_by n
  decreasing_by exact Nat.div_lt_self (by omega) (by omega)

def printStr (s : String) : List Char := '"' :: s.data ++ ['"']

def printStrList (l : List String) : List Char :=
  '[' :: (List.flatten ((l.map printStr).intersperse [','])) ++ [']']

/-- `JSON.stringify` of one saved word: the nine fields in creation order. -/
def printWord (w : SavedWord) : List Char :=
  "\x7b\"id\":".data ++ printStr w.id ++
  ",\"word\":".data ++ printStr w.word ++
  ",\"translation\":".data ++ printStr w.translation ++
  ",\"definition\":".data ++ printStr w.definition ++
  ",\"synonyms\":".data ++ printStrList w.synonyms ++
  ",\"context\":".data ++ printStr w.context ++
  ",\"timestamp\":".data ++ natDigits w.timestamp ++
  ",\"leitnerBox\":".data ++ natDigits w.leitnerBox ++
  ",\"nextReview\":".data ++ natDigits w.nextReview ++ "\x7d".data

/-- `JSON.stringify` of the stored word list. -/
def stringifyWords (l : List SavedWord) : String :=
  ⟨'[' :: (List.flatten ((l.map printWord).intersperse [','])) ++ [']']⟩

def plainWords (l : List SavedWord) : Bool := l.all plainWord

/-- Consume an expected literal. -/
def expectL : List Char → List Char → Option (List Char)
  | [], cs => some cs
  | _ :: _, [] => none
  | e :: es, c :: cs => if c = e then expectL es cs else none

/-- Body of a JSON string literal up to the closing quote.  Control
characters are invalid inside a JSON string and escapes do not occur in the
stored grammar (the application's fields are escape-free). -/
def parseStrAux : List Char → List Char → Option (String × List Char)
  | [], _ => none
  | c :: cs, acc =>
      if c = '"' then some (⟨acc.reverse⟩, cs)
      else if c.toNat < 0x20 then none
      else if c = '\\' then none
      else parseStrAux cs (c :: acc)

def parseStrL (cs : List Char) : Option (String × List Char) :=
  match cs with
  | [] => none
  | c :: rest => if c = '"' then parseStrAux rest [] else none

def isDigitC (c : Char) : Bool :=
  decide (0x30 ≤ c.toNat) && decide (c.toNat ≤ 0x39)

/-- Consume a maximal run of digits into an accumulator. -/
def parseNatGo : List Char → Nat → Nat × List Char
  | [], acc => (acc, [])
  | c :: rest, acc =>
      if isDigitC c then parseNatGo rest (acc * 10 + (c.toNat - 0x30))
      else (acc, c :: rest)

/-- A JSON (non-negative integer) number literal. -/
def parseNatL (cs : List Char) : Option (Nat × List Char) :=
  match cs with
  | [] => none
  | c :: _ => if isDigitC c then some (parseNatGo cs 0) else none

/-- The remainder does not begin with another digit (so a number literal ends
exactly where its printed digits end). -/
def headNotDigit (cs : List Char) : Bool :=
  match cs with
  | [] => true
  | c :: _ => !isDigitC c

/-- Elements of a non-empty JSON string array, after the opening bracket. -/
def parseStrListAux : Nat → List Char → Option (List String × List Char)
  | 0, _ => none
  | fuel + 1, cs =>
      match parseStrL cs with
      | none => none
      | some (s, rest) =>
          match rest with
          | [] => none
          | c :: rest2 =>
              if c = ',' then
                match parseStrListAux fuel rest2 with
                | none => none
                | some (ss, rest3) => some (s :: ss, rest3)
              else if c = ']' then some ([s], rest2)
              else none

/-- A JSON array of strings. -/
def parseStrListL (cs : List Char) : Option (List String × List Char) :=
  match cs with
  | [] => none
  | c :: rest =>
      if c = '[' then
        match rest with
        | [] => none
        | d :: rest2 =>
            if d = ']' then some ([], rest2)
            else parseStrListAux (rest.length + 1) rest
      else none

/-- A field tag followed by a string value. -/
def pStrField (lit : List Char) (cs : List Char) : Option (String × List Char) :=
  match expectL lit cs with
  | none => none
  | some r => parseStrL r

/-- A field tag followed by a number value. -/
def pNatField (lit : List Char) (cs : List Char) : Option (Nat × List Char) :=
  match expectL lit cs with
  | none => none
  | some r => parseNatL r

/-- A field tag followed by a string-array value. -/
def pStrListField (lit : List Char) (cs : List Char) :
    Option (List String × List Char) :=
  match expectL lit cs with
  | none => none
  | some r => parseStrListL r

/-- The first four (string) fields of a saved-word object. -/
def parseWordHead (cs : List Char) :
    Option (String × String × String × String × List Char) :=
  match pStrField "\x7b\"id\":".data cs with
  | none => none
  | some (idv, r2) =>
    match pStrField ",\"word\":".data r2 with
    | none => none
    | some (wordv, r4) =>
      match pStrField ",\"translation\":".data r4 with
      | none => none
      | some (transv, r6) =>
        match pStrField ",\"definition\":".data r6 with
        | none => none
        | some (defv, r8) => some (idv, wordv, transv, defv, r8)

/-- The last three (number) fields and the closing brace. -/
def parseWordNums (cs : List Char) : Option (Nat × Nat × Nat × List Char) :=
  match pNatField ",\"timestamp\":".data cs with
  | none => none
  | some (tsv, r14) =>
    match pNatField ",\"leitnerBox\":".data r14 with
    | none => none
    | some (boxv, r16) =>
      match pNatField ",\"nextReview\":".data r16 with
      | none => none
      | some (nrv, r18) =>
        match expectL "\x7d".data r18 with
        | none => none
        | some r19 => some (tsv, boxv, nrv, r19)

/-- One saved-word object in the stored grammar: the nine known fields in
creation order. -/
def parseWordL (cs : List Char) : Option (SavedWord × List Char) :=
  match parseWordHead cs with
  | none => none
  | some (idv, wordv, transv, defv, r8) =>
    match pStrListField ",\"synonyms\":".data r8 with
    | none => none
    | some (synv, r10) =>
      match pStrField ",\"context\":".data r10 with
      | none => none
      | some (ctxv, r12) =>
        match parseWordNums r12 with
        | none => none
        | some (tsv, boxv, nrv, r19) =>
          some (⟨idv, wordv, transv, defv, synv, ctxv, tsv, boxv, nrv⟩, r19)

/-- Elements of a non-empty stored word array, after the opening bracket. -/
def parseWordsAux : Nat → List Char → Option (List SavedWord × List Char)
  | 0, _ => none
  | fuel + 1, cs =>
      match parseWordL cs with
      | none => none
      | some (w, rest) =>
          match rest with
          | [] => none
          | c :: rest2 =>
              if c = ',' then
                match parseWordsAux fuel rest2 with
                | none => none
                | some (ws, rest3) => some (w :: ws, rest3)
              else if c = ']' then some ([w], rest2)
              else none

/-- `JSON.parse`, modelled on the value space the application stores: a JSON
array of saved-word objects in the stored grammar.  `none` is a parse
failure — the `SyntaxError` the platform parser would throw. -/
def parseWords (s : String) : Option (List SavedWord) :=
  match s.data with
  | [] => none
  | c :: rest =>
      if c = '[' then
        match rest with
        | [] => none
        | d :: rest2 =>
            if d = ']' then (if rest2 = [] then some [] else none)
            else
              match parseWordsAux (rest.length + 1) rest with
              | some (ws, []) => some ws
              | _ => none
      else none

/-- The `useState` initializer of the saved-word list (src/index.tsx:43–46):
`saved ? JSON.parse(saved) : []`.  A missing key (`getItem` returned `null`)
or an empty stored string (falsy in JavaScript) yields the empty list; any
other payload goes to the JSON parser, whose failure (`none`) propagates out
of the initializer and fails the application. -/
def loadSavedWords (stored : Option String) : Option (List SavedWord) :=
  match stored with
  | none => some []
  | some s => if s.data = [] then some [] else parseWords s

/-! ## Concrete instances used by the theorems below -/

/-- The case-insensitive key-match predicate of `handleSaveWord`. -/
def sameKey (a b : SavedWord) : Prop := strLower a.word = strLower b.word

instance : DecidablePred fun p : SavedWord × SavedWord => sameKey p.1 p.2 :=
  fun _ => by unfold sameKey; infer_instance

/-- A saved word whose `nextReview` lies strictly in the future. -/
def futureWord : SavedWord :=
  { id := "f", word := "later", translation := "позже", definition := "d"
    synonyms := [], context := "c", timestamp := 0, leitnerBox := 0
    nextReview := 1 }

/-- A passage with no pre-baked offline quiz. -/
def quizlessPassage : Passage := { id := 1, title := "p", offlineQuiz := none }

/-- The three-item quiz used for C8's concrete scenario. -/
def demoItem : QuizItem :=
  { word := "w", question := "q", options := ["a", "b"], correctAnswerIndex := 0
    explanation := "e" }

/-- A freshly started `PLAYING` session over three copies of `demoItem`. -/
def demoSession : QuizState :=
  { stage := .PLAYING, questions := [demoItem, demoItem, demoItem]
    currentQIndex := 0, score := 0, selectedOption := none, isAnswered := false }

/-! ## C1 — the spaced-repetition scheduler -/

/-- **C1.** For every saved word with box `b ≤ 5`, success flag `s` and time
`now`, the progress update gives `newBox = min (b+1) 5` on success and `0` on
failure, keeps the box in `[0, 5]`, and sets
`nextReview = now + intervalDays(newBox) * 24*60*60*1000` where the interval
table `[0,1,3,7,14,30]` is indexed clamped to its last entry for any box at or
above the last index; `handleUpdateWordProgress` applies exactly this update
to the entries whose id matches and leaves every other entry unchanged. -/
theorem scheduler_recordOutcome_correct (w : SavedWord) (s : Bool) (now : Nat)
    (hb : w.leitnerBox ≤ 5) :
    ((updateWord w s now).leitnerBox = if s then min (w.leitnerBox + 1) 5 else 0) ∧
    (updateWord w s now).leitnerBox ≤ 5 ∧
    (updateWord w s now).nextReview =
      now + (REVIEW_INTERVALS.getD (updateWord w s now).leitnerBox 0) *
        (24 * 60 * 60 * 1000) ∧
    (∀ b : Nat, 5 ≤ b → getNextReviewDate now b = now + 30 * (24 * 60 * 60 * 1000)) ∧
    (∀ (store : List SavedWord) (i : String) (k : Nat),
        (handleUpdateWordProgress store i s now)[k]? =
          (store[k]?).map fun x => if x.id ≠ i then x else updateWord x s now) := by
  refine ⟨?_, ?_, ?_, ?_, ?_⟩
  · cases s <;> simp [updateWord, REVIEW_INTERVALS]
  · cases s <;> simp [updateWord, REVIEW_INTERVALS] <;> omega
  · cases s <;>
      simp [updateWord, getNextReviewDate, REVIEW_INTERVALS, Nat.min_def] <;>
      split <;> simp_all <;> omega
  · intro b hb5
    have h5 : min b 5 = 5 := by omega
    simp [getNextReviewDate, REVIEW_INTERVALS, h5]
  · intro store i k
    simp [handleUpdateWordProgress, List.getElem?_map]

/-- Witness for C1 at a concrete input: box 3, success, `now = 1000`. -/
theorem scheduler_recordOutcome_correct_witness :
    (updateWord
        { id := "a", word := "w", translation := "t", definition := "d"
          synonyms := [], context := "c", timestamp := 0, leitnerBox := 3
          nextReview := 0 } true 1000).leitnerBox = min (3 + 1) 5 ∧
    getNextReviewDate 1000 7 = 1000 + 30 * (24 * 60 * 60 * 1000) := by
  have h := scheduler_recordOutcome_correct
    { id := "a", word := "w", translation := "t", definition := "d"
      synonyms := [], context := "c", timestamp := 0, leitnerBox := 3
      nextReview := 0 } true 1000 (by decide)
  exact ⟨by rw [h.1]; decide, h.2.2.2.1 7 (by decide)⟩

/-! ## C5 — store dedup and key uniqueness -/

/-- Characterization of `handleSaveWord`: no-op on a key hit, append on a
miss. -/
theorem handleSaveWord_spec (prev : List SavedWord) (nw : SavedWord) :
    ((∃ w ∈ prev, sameKey w nw) → handleSaveWord prev nw = prev) ∧
    ((¬ ∃ w ∈ prev, sameKey w nw) → handleSaveWord prev nw = prev ++ [nw]) := by
  constructor
  · intro hex
    simp only [handleSaveWord]
    rw [if_pos]
    rw [List.any_eq_true]
    obtain ⟨w, hw, hk⟩ := hex
    exact ⟨w, hw, by simpa [sameKey] using hk⟩
  · intro hnex
    simp only [handleSaveWord]
    rw [if_neg]
    rw [List.any_eq_true]
    intro ⟨w, hw, hk⟩
    exact hnex ⟨w, hw, by simpa [sameKey] using hk⟩

/-- **C5.** `handleSaveWord` is a no-op when an entry with the same
case-insensitively compared key exists and otherwise appends the candidate at
the end; adding two candidates with matching keys to a store free of that key
leaves exactly the first of them; and the at-most-one-entry-per-key invariant
is preserved by every add (the empty store having it vacuously). -/
theorem store_dedup_correct :
    (∀ (prev : List SavedWord) (nw : SavedWord),
       ((∃ w ∈ prev, sameKey w nw) → handleSaveWord prev nw = prev) ∧
       ((¬ ∃ w ∈ prev, sameKey w nw) → handleSaveWord prev nw = prev ++ [nw])) ∧
    (∀ (prev : List SavedWord) (c d : SavedWord), sameKey c d →
       (¬ ∃ w ∈ prev, sameKey w c) →
       handleSaveWord (handleSaveWord prev c) d = prev ++ [c]) ∧
    (∀ (prev : List SavedWord) (nw : SavedWord),
       prev.Pairwise (fun a b => ¬ sameKey a b) →
       (handleSaveWord prev nw).Pairwise (fun a b => ¬ sameKey a b)) := by
  refine ⟨handleSaveWord_spec, ?_, ?_⟩
  · intro prev c d hcd hnc
    rw [(handleSaveWord_spec prev c).2 hnc]
    apply (handleSaveWord_spec (prev ++ [c]) d).1
    exact ⟨c, by simp, by simpa [sameKey] using hcd⟩
  · intro prev nw hpw
    by_cases hex : ∃ w ∈ prev, sameKey w nw
    · rw [(handleSaveWord_spec prev nw).1 hex]; exact hpw
    · rw [(handleSaveWord_spec prev nw).2 hex]
      rw [List.pairwise_append]
      refine ⟨hpw, List.pairwise_singleton _ _, ?_⟩
      intro a ha b hb
      simp only [List.mem_singleton] at hb
      subst hb
      exact fun hk => hex ⟨a, ha, hk⟩

/-- Witness for C5 at concrete inputs: two candidates with keys `"Word"` and
`"word"` added to the empty store leave exactly the first. -/
theorem store_dedup_correct_witness :
    handleSaveWord
      (handleSaveWord []
        { id := "1", word := "Word", translation := "t", definition := "d"
          synonyms := [], context := "c", timestamp := 0, leitnerBox := 0
          nextReview := 0 })
      { id := "2", word := "word", translation := "t2", definition := "d2"
        synonyms := [], context := "c2", timestamp := 1, leitnerBox := 0
        nextReview := 1 } =
      [{ id := "1", word := "Word", translation := "t", definition := "d"
         synonyms := [], context := "c", timestamp := 0, leitnerBox := 0
         nextReview := 0 }] := by
  have h := store_dedup_correct.2.1 []
    { id := "1", word := "Word", translation := "t", definition := "d"
      synonyms := [], context := "c", timestamp := 0, leitnerBox := 0
      nextReview := 0 }
    { id := "2", word := "word", translation := "t2", definition := "d2"
      synonyms := [], context := "c2", timestamp := 1, leitnerBox := 0
      nextReview := 1 }
    (by unfold sameKey; decide) (by simp)
  simpa using h

/-! ## C2 — what surfaces in a review session -/

/-- **C2 counterexample.** At `now = 0` the word `futureWord` is not due —
the due filter of the one-word store is empty — yet the review session built
by the start-review button contains it: the session is not the `isDue`
subsequence of the store. -/
theorem review_session_counterexample :
    dueWords [futureWord] 0 = [] ∧
    reviewSession [futureWord] (fun _ _ => true) = [futureWord] ∧
    reviewSession [futureWord] (fun _ _ => true) ≠ dueWords [futureWord] 0 := by
  refine ⟨by decide, by decide, by decide⟩

/-- **C2 amended.** The due list is exactly the `nextReviewAt ≤ now` filter of
the store, but the review session is a shuffle of the *entire* store: its
members are exactly the store's members, due or not, so a word whose
`nextReviewAt` is in the future still appears in the review session. -/
theorem review_session_amended (words : List SavedWord) (now : Nat)
    (cmp : SavedWord → SavedWord → Bool) :
    (∀ w, w ∈ dueWords words now ↔ w ∈ words ∧ w.nextReview ≤ now) ∧
    (reviewSession words cmp).Perm words ∧
    (∀ w, w ∈ reviewSession words cmp ↔ w ∈ words) := by
  refine ⟨?_, ?_, ?_⟩
  · intro w
    simp [dueWords, List.mem_filter]
  · exact List.perm_insertionSort _ words
  · intro w
    exact (List.perm_insertionSort _ words).mem_iff

/-- Witness for C2 amended at a concrete input: a single due word both passes
the filter and appears in the session. -/
theorem review_session_amended_witness :
    futureWord ∈ dueWords [futureWord] 2 ∧
    (reviewSession [futureWord] (fun _ _ => true)).Perm [futureWord] := by
  have h := review_session_amended [futureWord] 2 (fun _ _ => true)
  exact ⟨(h.1 futureWord).2 ⟨by simp, by decide⟩, h.2.1⟩

/-! ## C7 — starting a quiz on a passage with no pre-baked item list -/

/-- **C7 counterexample.** Starting the quiz on a passage that has no
pre-baked item list does *not* leave the machine in `SETUP` (nor surface any
error state — the model has none): `generateQuiz` moves the stage to
`LOADING` before checking for `offlineQuiz`, so the machine silently leaves
`SETUP` for a loading state. -/
theorem quiz_start_counterexample :
    (generateQuiz [quizlessPassage] 1 (fun _ _ => true) initQuizState).stage =
      QuizStage.LOADING ∧
    (generateQuiz [quizlessPassage] 1 (fun _ _ => true) initQuizState).stage ≠
      QuizStage.SETUP ∧
    generateQuiz [quizlessPassage] 1 (fun _ _ => true) initQuizState ≠
      initQuizState := by
  refine ⟨by decide, by decide, by decide⟩

/-- **C7 amended.** When the selected passage exists but has no pre-baked
item list, start transitions `SETUP → LOADING` (changing nothing else) and
the machine then makes no further transition at all: every state reachable
from the stuck state is the stuck state itself, so `PLAYING` and `RESULT` are
never reached but `SETUP` has been silently left. -/
theorem quiz_start_amended (passages : List Passage) (selId : Nat) (p : Passage)
    (cmp : QuizItem → QuizItem → Bool) (s : QuizState)
    (hfind : passages.find? (fun q => q.id = selId) = some p)
    (hnone : p.offlineQuiz = none) (hs : s.stage = .SETUP) :
    generateQuiz passages selId cmp s = { s with stage := .LOADING } ∧
    (generateQuiz passages selId cmp s).stage ≠ QuizStage.SETUP ∧
    (∀ s', Relation.ReflTransGen (QuizStep passages) { s with stage := .LOADING } s' →
       s' = { s with stage := .LOADING }) := by
  have hgen : generateQuiz passages selId cmp s = { s with stage := .LOADING } := by
    simp [generateQuiz, hfind, hnone]
  refine ⟨hgen, by rw [hgen]; simp, ?_⟩
  intro s' hreach
  induction hreach with
  | refl => rfl
  | tail hab hbc ih =>
      subst ih
      cases hbc with
      | start selId2 cmp2 hstage => simp at hstage
      | answer idx hstage hq => simp at hstage
      | advance hstage => simp at hstage

/-- Witness for C7 amended at a concrete input: the one-passage list whose
passage lacks an offline quiz. -/
theorem quiz_start_amended_witness :
    generateQuiz [quizlessPassage] 1 (fun _ _ => true) initQuizState =
      { initQuizState with stage := .LOADING } ∧
    ({ initQuizState with stage := .LOADING } : QuizState) =
      { initQuizState with stage := .LOADING } := by
  have h := quiz_start_amended [quizlessPassage] 1 quizlessPassage
    (fun _ _ => true) initQuizState (by decide) (by decide) (by decide)
  exact ⟨h.1, h.2.2 _ (Relation.ReflTransGen.refl)⟩

/-! ## C8 — single-answer guard and scoring -/

/-- **C8.** In a `PLAYING` state the answer handler is accepted at most once
per item: with `isAnswered` set, a further call changes nothing (so answering
twice equals answering once), while the accepted call marks the item
answered, records the selection, and increments the score by one exactly when
the chosen index equals the current item's `correctAnswerIndex`; in the
three-item session answered correct, incorrect, correct, advancing past the
last item reaches `RESULT` with score 2 of 3. -/
theorem quiz_answer_correct :
    (∀ (s : QuizState) (i : Nat), s.stage = .PLAYING → s.isAnswered = true →
       handleSelectAnswer s i = s) ∧
    (∀ (s : QuizState) (i : Nat), s.stage = .PLAYING → s.isAnswered = false →
       (handleSelectAnswer s i).isAnswered = true ∧
       (handleSelectAnswer s i).selectedOption = some i ∧
       (handleSelectAnswer s i).score = s.score +
         (if i = (s.questions.getD s.currentQIndex default).correctAnswerIndex
          then 1 else 0)) ∧
    (∀ (s : QuizState) (i j : Nat),
       handleSelectAnswer (handleSelectAnswer s i) j = handleSelectAnswer s i) ∧
    ((nextQuestion (handleSelectAnswer (nextQuestion (handleSelectAnswer
        (nextQuestion (handleSelectAnswer demoSession 0)) 1)) 0)).stage =
        QuizStage.RESULT ∧
     (nextQuestion (handleSelectAnswer (nextQuestion (handleSelectAnswer
        (nextQuestion (handleSelectAnswer demoSession 0)) 1)) 0)).score = 2 ∧
     (nextQuestion (handleSelectAnswer (nextQuestion (handleSelectAnswer
        (nextQuestion (handleSelectAnswer demoSession 0)) 1)) 0)).questions.length
        = 3) := by
  refine ⟨?_, ?_, ?_, by decide, by decide, by decide⟩
  · intro s i _ hia
    simp [handleSelectAnswer, hia]
  · intro s i _ hia
    refine ⟨by simp [handleSelectAnswer, hia], by simp [handleSelectAnswer, hia], ?_⟩
    simp only [handleSelectAnswer, hia, Bool.false_eq_true, if_false]
    split <;> simp
  · intro s i j
    by_cases hia : s.isAnswered
    · have heq : handleSelectAnswer s i = s := by simp [handleSelectAnswer, hia]
      rw [heq]
      simp [handleSelectAnswer, hia]
    · have h1 : (handleSelectAnswer s i).isAnswered = true := by
        simp [handleSelectAnswer, hia]
      generalize handleSelectAnswer s i = t at h1 ⊢
      simp [handleSelectAnswer, h1]

/-- Witness for C8 at a concrete input: the double-call guard on the fresh
demo session. -/
theorem quiz_answer_correct_witness :
    handleSelectAnswer demoSession 1 = demoSession ∨
    (handleSelectAnswer demoSession 1).isAnswered = true := by
  exact Or.inr (quiz_answer_correct.2.1 demoSession 1 (by decide) (by decide)).1

/-! ## C9 — invariants of reachable quiz states -/

theorem selectAnswer_stage (s : QuizState) (i : Nat) :
    (handleSelectAnswer s i).stage = s.stage := by
  unfold handleSelectAnswer; split <;> rfl

theorem selectAnswer_questions (s : QuizState) (i : Nat) :
    (handleSelectAnswer s i).questions = s.questions := by
  unfold handleSelectAnswer; split <;> rfl

theorem selectAnswer_index (s : QuizState) (i : Nat) :
    (handleSelectAnswer s i).currentQIndex = s.currentQIndex := by
  unfold handleSelectAnswer; split <;> rfl

theorem selectAnswer_score_le (s : QuizState) (i : Nat) :
    (handleSelectAnswer s i).score ≤ s.score + 1 := by
  unfold handleSelectAnswer
  split
  · omega
  · dsimp only
    split <;> omega

theorem selectAnswer_of_answered (s : QuizState) (i : Nat)
    (hia : s.isAnswered = true) : handleSelectAnswer s i = s := by
  simp [handleSelectAnswer, hia]

theorem selectAnswer_isAnswered (s : QuizState) (i : Nat)
    (hia : s.isAnswered = false) : (handleSelectAnswer s i).isAnswered = true := by
  simp [handleSelectAnswer, hia]

/-- Strengthened inductive invariant for `ReachPlay`: the score never exceeds
the number of accepted answers, which never exceeds the number of item slots
consumed so far, which never exceeds the question count; the current index
stays in range while playing. -/
theorem reachPlay_strong_invariant (s : QuizState) (n : Nat) (h : ReachPlay s n) :
    s.score ≤ n ∧
    ((s.stage = .PLAYING ∧
        n ≤ s.currentQIndex + (if s.isAnswered then 1 else 0) ∧
        s.currentQIndex + (if s.isAnswered then 1 else 0) ≤ s.questions.length ∧
        (0 < s.questions.length → s.currentQIndex < s.questions.length) ∧
        (s.questions.length = 0 → s.currentQIndex = 0)) ∨
      (s.stage = .RESULT ∧ n ≤ s.questions.length)) := by
  induction h with
  | start items qs hperm => simp
  | answer s n idx h hs hq ih =>
      rcases ih with ⟨hscore, hbr | hbr⟩
      swap
      · rw [hs] at hbr; exact absurd hbr.1 (by simp)
      obtain ⟨hstage, hn1, hn2, hn3, hn4⟩ := hbr
      by_cases hia : s.isAnswered = true
      · rw [selectAnswer_of_answered s idx hia, if_pos hia]
        exact ⟨hscore, Or.inl ⟨hstage, hn1, hn2, hn3, hn4⟩⟩
      · have hia' : s.isAnswered = false := by simpa using hia
        rw [if_neg hia]
        rw [hia'] at hn1 hn2
        simp only [Bool.false_eq_true, if_false, Nat.add_zero] at hn1 hn2
        refine ⟨?_, Or.inl ⟨?_, ?_, ?_, ?_, ?_⟩⟩
        · have := selectAnswer_score_le s idx
          omega
        · rw [selectAnswer_stage]; exact hstage
        · rw [selectAnswer_index, selectAnswer_isAnswered s idx hia']
          simp
          omega
        · rw [selectAnswer_index, selectAnswer_questions,
            selectAnswer_isAnswered s idx hia']
          simp
          omega
        · rw [selectAnswer_index, selectAnswer_questions]; exact hn3
        · rw [selectAnswer_index, selectAnswer_questions]; exact hn4
  | advance s n h hs ih =>
      rcases ih with ⟨hscore, hbr | hbr⟩
      swap
      · rw [hs] at hbr; exact absurd hbr.1 (by simp)
      obtain ⟨hstage, hn1, hn2, hn3, hn4⟩ := hbr
      have hcond : n ≤ s.currentQIndex + 1 ∧
          s.currentQIndex + (if s.isAnswered then 1 else 0) ≤ s.questions.length := by
        cases hb : s.isAnswered <;> simp [hb] at hn1 hn2 ⊢ <;> omega
      by_cases hlt : s.currentQIndex + 1 < s.questions.length
      · have heq : nextQuestion s =
            { s with currentQIndex := s.currentQIndex + 1,
                     selectedOption := none, isAnswered := false } := by
          simp [nextQuestion, hlt]
        rw [heq]
        refine ⟨hscore, Or.inl ⟨hstage, ?_, ?_, ?_, ?_⟩⟩
        · dsimp only
          simp only [Bool.false_eq_true, if_false]
          omega
        · dsimp only
          simp only [Bool.false_eq_true, if_false]
          omega
        · dsimp only
          intro h0
          omega
        · dsimp only
          intro h0
          omega
      · have heq : nextQuestion s = { s with stage := .RESULT } := by
          simp [nextQuestion, hlt]
        rw [heq]
        refine ⟨hscore, Or.inr ⟨rfl, ?_⟩⟩
        dsimp only
        exact le_trans hn1 hn2

/-- **C9.** In every state reachable from a freshly started session by answer
and advance actions, `0 ≤ score ≤ answers accepted so far ≤ questions.length`;
while `PLAYING` with a non-empty question list the current index stays within
`[0, questions.length - 1]`; and in `RESULT` the score never exceeds the
question count. -/
theorem quiz_reachable_invariants (s : QuizState) (n : Nat) (h : ReachPlay s n) :
    0 ≤ s.score ∧ s.score ≤ n ∧ n ≤ s.questions.length ∧
    (s.stage = .PLAYING → s.questions ≠ [] →
       s.currentQIndex ≤ s.questions.length - 1) ∧
    (s.stage = .RESULT → s.score ≤ s.questions.length) := by
  obtain ⟨hscore, hbr⟩ := reachPlay_strong_invariant s n h
  rcases hbr with ⟨hstage, hn1, hn2, hn3, hn4⟩ | ⟨hstage, hn⟩
  · refine ⟨Nat.zero_le _, hscore, le_trans hn1 hn2, ?_, ?_⟩
    · intro _ hne
      have : 0 < s.questions.length := List.length_pos.mpr hne
      have := hn3 this
      omega
    · intro hres
      rw [hstage] at hres
      exact absurd hres (by simp)
  · refine ⟨Nat.zero_le _, hscore, hn, ?_, fun _ => le_trans hscore hn⟩
    intro hplay
    rw [hstage] at hplay
    exact absurd hplay (by simp)

/-- Witness for C9 at a concrete input: the freshly started demo session. -/
theorem quiz_reachable_invariants_witness :
    demoSession.score ≤ 0 ∧ (0 : Nat) ≤ demoSession.questions.length ∧
    demoSession.currentQIndex ≤ demoSession.questions.length - 1 := by
  have h := quiz_reachable_invariants demoSession 0
    (by
      have := ReachPlay.start [demoItem, demoItem, demoItem]
        [demoItem, demoItem, demoItem] (List.Perm.refl _)
      simpa [demoSession] using this)
  exact ⟨h.2.1, h.2.2.1, h.2.2.2.1 (by decide) (by decide)⟩

/-! ## C3 — tokenizer round trip -/

theorem splitWsL_flatten (cs : List Char) : (splitWsL cs).flatten = cs := by
  induction cs using splitWsL.induct with
  | case1 cs hdrop =>
      rw [splitWsL, hdrop]
      have hsplit := List.takeWhile_append_dropWhile
        (p := fun c => !jsWhitespace c) (l := cs)
      rw [hdrop] at hsplit
      simpa using hsplit
  | case2 cs a t hdrop ih =>
      rw [splitWsL, hdrop]
      simp only [List.flatten_cons, ih]
      rw [List.takeWhile_append_dropWhile]
      conv_rhs => rw [← List.takeWhile_append_dropWhile
        (p := fun c => !jsWhitespace c) (l := cs), hdrop]

/-- **C3.** Concatenating the `text` fields of all segments produced by
`splitParagraphIntoWords`, in order, reproduces the original paragraph
exactly. -/
theorem tokenizer_round_trip (text : String) :
    String.join ((splitParagraphIntoWords text).map fun s => s.text) = text := by
  unfold splitParagraphIntoWords
  rw [List.map_map]
  have hmap : ((fun s : Segment => s.text) ∘
      fun p : Nat × List Char => segmentToItem p.1 ⟨p.2⟩) =
      fun p : Nat × List Char => (⟨p.2⟩ : String) := by
    funext p
    show (segmentToItem p.1 ⟨p.2⟩).text = _
    unfold segmentToItem
    split <;> rfl
  rw [hmap, String.join_eq, List.map_map]
  have hsnd : (String.data ∘ fun p : Nat × List Char => (⟨p.2⟩ : String)) =
      Prod.snd := rfl
  rw [hsnd, List.enum_map_snd, splitWsL_flatten]

/-! ## C4 — normalization is *not* idempotent -/

/-- **C4 counterexample.** The input `x's'` normalizes to `x's` (the trailing
quote is stripped as outer punctuation, exposing a possessive marker), and a
second normalization strips the exposed `'s`, yielding `x`: normalization is
not idempotent. -/
theorem normalize_not_idempotent :
    cleanWord "x's'" = "x's" ∧
    cleanWord (cleanWord "x's'") = "x" ∧
    cleanWord (cleanWord "x's'") ≠ cleanWord "x's'" := by
  refine ⟨by decide, by decide, by decide⟩

theorem toNat_ofNat_valid (n : Nat) (h : n < 0xd800) : (Char.ofNat n).toNat = n := by
  have hv : n.isValidChar := Or.inl h
  rw [Char.ofNat, dif_pos hv]
  rfl

theorem charLower_idem (c : Char) : charLower (charLower c) = charLower c := by
  by_cases h1 : 0x41 ≤ c.toNat ∧ c.toNat ≤ 0x5A
  · have he : charLower c = Char.ofNat (c.toNat + 0x20) := by
      unfold charLower; rw [if_pos h1]
    have hv : (Char.ofNat (c.toNat + 0x20)).toNat = c.toNat + 0x20 :=
      toNat_ofNat_valid _ (by omega)
    rw [he]
    unfold charLower
    rw [if_neg (by rw [hv]; omega), if_neg (by rw [hv]; omega),
      if_neg (by rw [hv]; omega), if_neg (by rw [hv]; omega)]
  · by_cases h2 : 0x410 ≤ c.toNat ∧ c.toNat ≤ 0x42F
    · have he : charLower c = Char.ofNat (c.toNat + 0x20) := by
        unfold charLower; rw [if_neg h1, if_pos h2]
      have hv : (Char.ofNat (c.toNat + 0x20)).toNat = c.toNat + 0x20 :=
        toNat_ofNat_valid _ (by omega)
      rw [he]
      unfold charLower
      rw [if_neg (by rw [hv]; omega), if_neg (by rw [hv]; omega),
        if_neg (by rw [hv]; omega), if_neg (by rw [hv]; omega)]
    · by_cases h3 : c.toNat = 0x401
      · have he : charLower c = Char.ofNat 0x451 := by
          unfold charLower; rw [if_neg h1, if_neg h2, if_pos h3]
        have hv : (Char.ofNat 0x451).toNat = 0x451 := toNat_ofNat_valid _ (by omega)
        rw [he]
        unfold charLower
        rw [if_neg (by rw [hv]; omega), if_neg (by rw [hv]; omega),
          if_neg (by rw [hv]; omega), if_neg (by rw [hv]; omega)]
      · by_cases h4 : c.toNat = 0x212A
        · have he : charLower c = Char.ofNat 0x6B := by
            unfold charLower; rw [if_neg h1, if_neg h2, if_neg h3, if_pos h4]
          have hv : (Char.ofNat 0x6B).toNat = 0x6B := toNat_ofNat_valid _ (by omega)
          rw [he]
          unfold charLower
          rw [if_neg (by rw [hv]; omega), if_neg (by rw [hv]; omega),
            if_neg (by rw [hv]; omega), if_neg (by rw [hv]; omega)]
        · have he : charLower c = c := by
            unfold charLower; rw [if_neg h1, if_neg h2, if_neg h3, if_neg h4]
          rw [he, he]

theorem mem_stripPossL {a : Char} {cs : List Char} (h : a ∈ stripPossL cs) :
    a ∈ cs := by
  unfold stripPossL at h
  split at h
  next q rest heq =>
    split at h
    · rw [← List.mem_reverse, heq]
      rw [List.mem_reverse] at h
      simp [h]
    · exact h
  next => exact h

theorem mem_stripOuterL {a : Char} {cs : List Char} (h : a ∈ stripOuterL cs) :
    a ∈ cs := by
  unfold stripOuterL List.rdropWhile at h
  rw [List.mem_reverse] at h
  have h2 := (List.dropWhile_sublist (l := (cs.dropWhile fun c => !isWordChar c).reverse)
    (fun c => !isWordChar c)).mem h
  rw [List.mem_reverse] at h2
  exact (List.dropWhile_sublist _).mem h2

theorem charLower_toNat_ne (c : Char) (h : c.toNat ≠ 0x130) :
    (charLower c).toNat ≠ 0x130 := by
  unfold charLower
  split
  next h1 => rw [toNat_ofNat_valid _ (by omega)]; omega
  next h1 =>
    split
    next h2 => rw [toNat_ofNat_valid _ (by omega)]; omega
    next h2 =>
      split
      next h3 => rw [toNat_ofNat_valid _ (by omega)]; omega
      next h3 =>
        split
        next h4 => rw [toNat_ofNat_valid _ (by omega)]; omega
        next h4 => exact h

/-- Every character produced by lowering is itself lowering-fixed. -/
theorem charLowerL_fixed (c : Char) : ∀ d ∈ charLowerL c, charLowerL d = [d] := by
  intro d hd
  unfold charLowerL at hd
  split at hd
  next hi =>
    simp only [List.mem_cons, List.not_mem_nil, or_false] at hd
    rcases hd with rfl | rfl <;> decide
  next hi =>
    simp only [List.mem_singleton] at hd
    subst hd
    unfold charLowerL
    rw [if_neg (charLower_toNat_ne c hi), charLower_idem]

theorem cleanWordL_lower_fixed (cs : List Char) :
    ∀ a ∈ cleanWordL cs, charLowerL a = [a] := by
  intro a ha
  unfold cleanWordL at ha
  have h1 : a ∈ stripPossL (strLowerL cs) := mem_stripOuterL ha
  have h2 : a ∈ strLowerL cs := mem_stripPossL h1
  obtain ⟨b, _, hab⟩ := List.mem_flatMap.mp h2
  exact charLowerL_fixed b a hab

theorem strLowerL_fixed (cs : List Char) (h : ∀ a ∈ cs, charLowerL a = [a]) :
    strLowerL cs = cs := by
  unfold strLowerL
  induction cs with
  | nil => rfl
  | cons a t ih =>
      rw [List.flatMap_cons, h a (by simp), ih (fun b hb => h b (by simp [hb]))]
      rfl

theorem stripPossL_of_not_endsPoss (cs : List Char) (h : endsPossL cs = false) :
    stripPossL cs = cs := by
  unfold endsPossL at h
  unfold stripPossL
  split
  next q rest heq =>
    rw [heq] at h
    simp only [decide_eq_false_iff_not] at h
    rw [if_neg h]
  next => rfl

theorem stripOuterL_idem (cs : List Char) :
    stripOuterL (stripOuterL cs) = stripOuterL cs := by
  unfold stripOuterL
  have hdz : List.dropWhile (fun c => !isWordChar c)
      (List.rdropWhile (fun c => !isWordChar c)
        (cs.dropWhile fun c => !isWordChar c)) =
      List.rdropWhile (fun c => !isWordChar c)
        (cs.dropWhile fun c => !isWordChar c) := by
    cases hzz : List.rdropWhile (fun c => !isWordChar c)
        (cs.dropWhile fun c => !isWordChar c) with
    | nil => simp
    | cons b t =>
        have hzy : (b :: t) <+:
            (cs.dropWhile fun c => !isWordChar c) := by
          rw [← hzz]
          have h1 : (List.rdropWhile (fun c => !isWordChar c)
              (cs.dropWhile fun c => !isWordChar c)).reverse <:+
              (cs.dropWhile fun c => !isWordChar c).reverse := by
            rw [List.rdropWhile, List.reverse_reverse]
            exact List.dropWhile_suffix _
          exact List.reverse_suffix.mp h1
        obtain ⟨rest, hrest⟩ := hzy
        have hyne : (cs.dropWhile fun c => !isWordChar c) ≠ [] := by
          rw [← hrest]; simp
        have hcons : (cs.dropWhile fun c => !isWordChar c) = b :: (t ++ rest) := by
          rw [← hrest]; simp
        have hb := List.head_dropWhile_not (fun c => !isWordChar c) cs hyne
        simp only [hcons, List.head_cons] at hb
        exact List.dropWhile_cons_of_neg (by simp_all)
  rw [hdz, List.rdropWhile_idempotent]

/-- **C4 amended.** Normalization is idempotent exactly as long as the first
pass does not leave a key ending in the possessive pattern `'s`/`’s` (which
only happens when stripping outer punctuation exposes such a suffix, as in
the counterexample `x's'`): for every `w` whose normalized form does not end
in the possessive marker, `normalize (normalize w) = normalize w`. -/
theorem normalize_idempotent_amended (w : String)
    (h : endsPossL (cleanWord w).data = false) :
    cleanWord (cleanWord w) = cleanWord w := by
  have hr : (cleanWord w).data = cleanWordL w.data := rfl
  have key : cleanWordL (cleanWordL w.data) = cleanWordL w.data := by
    conv_lhs => rw [cleanWordL]
    rw [strLowerL_fixed _ (cleanWordL_lower_fixed w.data)]
    rw [stripPossL_of_not_endsPoss _ (by rw [← hr]; exact h)]
    conv_lhs => rw [show cleanWordL w.data =
      stripOuterL (stripPossL (strLowerL w.data)) from rfl]
    rw [stripOuterL_idem]
    rfl
  show (⟨cleanWordL (cleanWord w).data⟩ : String) = cleanWord w
  rw [hr, key]
  rfl

/-- Witness for C4 amended at a concrete input: `"Hello,"` normalizes to
`"hello"`, which is stable under a second normalization. -/
theorem normalize_idempotent_amended_witness :
    cleanWord (cleanWord "Hello,") = cleanWord "Hello," := by
  exact normalize_idempotent_amended "Hello," (by decide)

/-! ## C10 — word-character-free segments and empty keys -/

theorem dropWhile_eq_self_of_all {α : Type} {p : α → Bool} {l : List α}
    (h : ∀ c ∈ l, p c = false) : l.dropWhile p = l := by
  cases l with
  | nil => rfl
  | cons a t => exact List.dropWhile_cons_of_neg (by simp [h a (by simp)])

theorem rdropWhile_eq_self_of_all {α : Type} {p : α → Bool} {l : List α}
    (h : ∀ c ∈ l, p c = false) : l.rdropWhile p = l := by
  rw [List.rdropWhile, dropWhile_eq_self_of_all (by simpa using h),
    List.reverse_reverse]

theorem cleanWordL_of_no_wordChar (cs : List Char)
    (hlow : ∀ c ∈ strLowerL cs, isWordChar c = false) : cleanWordL cs = [] := by
  have hposs : stripPossL (strLowerL cs) = strLowerL cs := by
    unfold stripPossL
    split
    next q rest heq =>
      exfalso
      have hsm : 's' ∈ (strLowerL cs).reverse := by rw [heq]; simp
      rw [List.mem_reverse] at hsm
      have := hlow 's' hsm
      simp [isWordChar] at this
    next => rfl
  rw [cleanWordL, hposs]
  unfold stripOuterL
  have hd : (strLowerL cs).dropWhile (fun c => !isWordChar c) = [] := by
    rw [List.dropWhile_eq_nil_iff]
    intro c hc
    simp [hlow c hc]
  rw [hd]
  simp

/-- **C10 counterexample.** The claim fails at the Kelvin sign segment
`"\u212A"`: it is non-whitespace and contains no Latin/Cyrillic word
character, yet its lowercase form is the word character `k`, so the tokenizer
produces the non-empty normalized key `"k"` instead of the empty key the
claim asserts. -/
theorem empty_key_counterexample :
    (∀ c ∈ ("\u212A" : String).data, jsWhitespace c = false) ∧
    (∀ c ∈ ("\u212A" : String).data, isWordChar c = false) ∧
    ("\u212A" : String).data ≠ [] ∧
    segmentToItem 0 "\u212A" =
      { text := "\u212A", id := 0, isWord := true, word := some "k" } ∧
    (segmentToItem 0 "\u212A").word ≠ some "" := by
  refine ⟨by decide, by decide, by decide, by decide, by decide⟩

/-- **C10 amended.** A non-whitespace segment containing no Latin/Cyrillic
word characters *and none of whose characters lowercases into that class*
(which excludes exactly `K` U+212A and `İ` U+0130) is tokenized as a
clickable word segment with an empty normalized key; committing its fallback
lookup result (the dictionary missing the empty key, per the spec) builds a
`SavedWord` whose `word` field is the empty string, which the public save
interface accepts — and the dedup rule keeps at most one such entry. -/
theorem empty_key_segment_flow :
    (∀ (i : Nat) (seg : String), seg.data ≠ [] →
       (∀ c ∈ seg.data, jsWhitespace c = false) →
       (∀ c ∈ seg.data, isWordChar c = false) →
       (∀ c ∈ seg.data, ∀ d ∈ charLowerL c, isWordChar d = false) →
       segmentToItem i seg =
         { text := seg, id := i, isWord := true, word := some "" }) ∧
    (∀ (dict : String → Option DictEntry) (ctx uuid : String) (now : Nat),
       dict "" = none →
       buildSavedWord dict "" ctx uuid now =
         { id := uuid, word := "", translation := "Перевод для \"\""
           definition := "Tap to save and review later.", synonyms := []
           context := ctx, timestamp := now, leitnerBox := 0
           nextReview := now }) ∧
    (∀ (store : List SavedWord) (c d : SavedWord), c.word = "" → d.word = "" →
       (¬ ∃ w ∈ store, strLower w.word = "") →
       handleSaveWord (handleSaveWord store c) d = store ++ [c]) := by
  refine ⟨?_, ?_, ?_⟩
  · intro i seg hne hws _ hlowc
    have htrim : jsTrimL seg.data = seg.data := by
      unfold jsTrimL
      rw [dropWhile_eq_self_of_all hws, rdropWhile_eq_self_of_all hws]
    have hlow : ∀ d ∈ strLowerL seg.data, isWordChar d = false := by
      intro d hd
      obtain ⟨c, hc, hdc⟩ := List.mem_flatMap.mp hd
      exact hlowc c hc d hdc
    have hclean : cleanWord seg = "" := by
      show (⟨cleanWordL seg.data⟩ : String) = ""
      rw [cleanWordL_of_no_wordChar seg.data hlow]
    unfold segmentToItem
    rw [htrim, if_neg hne, hclean]
  · intro dict ctx uuid now hmiss
    have hclean : cleanWord "" = "" := rfl
    unfold buildSavedWord translationData
    rw [hclean, hmiss]
    rfl
  · intro store c d hc hd hno
    have h1 : handleSaveWord store c = store ++ [c] := by
      apply (handleSaveWord_spec store c).2
      intro ⟨w, hw, hk⟩
      exact hno ⟨w, hw, by rw [hk, hc]; rfl⟩
    rw [h1]
    apply (handleSaveWord_spec (store ++ [c]) d).1
    refine ⟨c, by simp, ?_⟩
    show strLower c.word = strLower d.word
    rw [hc, hd]

/-- Witness for C10 at concrete inputs: the em-dash segment and an empty
dictionary. -/
theorem empty_key_segment_flow_witness :
    segmentToItem 0 "—" = { text := "—", id := 0, isWord := true, word := some "" } ∧
    (buildSavedWord (fun _ => none) "" "ctx" "u1" 7).word = "" ∧
    handleSaveWord
      (handleSaveWord [] (buildSavedWord (fun _ => none) "" "ctx" "u1" 7))
      (buildSavedWord (fun _ => none) "" "ctx2" "u2" 9) =
      [buildSavedWord (fun _ => none) "" "ctx" "u1" 7] := by
  refine ⟨?_, ?_, ?_⟩
  · exact empty_key_segment_flow.1 0 "—" (by decide) (by decide) (by decide)
      (by decide)
  · rw [empty_key_segment_flow.2.1 (fun _ => none) "ctx" "u1" 7 rfl]
  · have h := empty_key_segment_flow.2.2 []
      (buildSavedWord (fun _ => none) "" "ctx" "u1" 7)
      (buildSavedWord (fun _ => none) "" "ctx2" "u2" 9)
      (by rw [empty_key_segment_flow.2.1 (fun _ => none) "ctx" "u1" 7 rfl])
      (by rw [empty_key_segment_flow.2.1 (fun _ => none) "ctx2" "u2" 9 rfl])
      (by simp)
    simpa using h

/-! ## C6 — persistence load: round trip and failure propagation -/

theorem expectL_append (lit rest : List Char) :
    expectL lit (lit ++ rest) = some rest := by
  induction lit with
  | nil => rfl
  | cons e es ih =>
      show expectL (e :: es) (e :: (es ++ rest)) = some rest
      unfold expectL
      rw [if_pos rfl]
      exact ih

theorem parseStrAux_spec (body : List Char) :
    ∀ (acc rest : List Char), (∀ c ∈ body, isPlainChar c = true) →
    parseStrAux (body ++ '"' :: rest) acc = some (⟨acc.reverse ++ body⟩, rest) := by
  induction body with
  | nil =>
      intro acc rest _
      show parseStrAux ('"' :: rest) acc = _
      unfold parseStrAux
      rw [if_pos rfl]
      simp
  | cons c body' ih =>
      intro acc rest hplain
      have hc := hplain c (by simp)
      simp only [isPlainChar, Bool.and_eq_true, decide_eq_true_eq,
        bne_iff_ne, ne_eq] at hc
      obtain ⟨⟨h1, h2⟩, h3⟩ := hc
      show parseStrAux (c :: (body' ++ '"' :: rest)) acc = _
      unfold parseStrAux
      rw [if_neg h2, if_neg (by omega), if_neg h3]
      rw [ih (c :: acc) rest (fun d hd => hplain d (by simp [hd]))]
      simp

theorem parseStrL_print (s : String) (rest : List Char)
    (h : isPlainStr s = true) :
    parseStrL (printStr s ++ rest) = some (s, rest) := by
  have hsh : printStr s ++ rest = '"' :: (s.data ++ '"' :: rest) := by
    simp [printStr]
  rw [hsh]
  show (if ('"' : Char) = '"' then parseStrAux (s.data ++ '"' :: rest) [] else none) =
    some (s, rest)
  rw [if_pos rfl]
  rw [parseStrAux_spec s.data [] rest (by simpa [isPlainStr, List.all_eq_true] using h)]
  simp

theorem digitChar_toNat (k : Nat) (hk : k < 10) : (digitChar k).toNat = 0x30 + k := by
  exact toNat_ofNat_valid _ (by omega)

theorem isDigitC_digitChar (k : Nat) (hk : k < 10) : isDigitC (digitChar k) = true := by
  simp [isDigitC, digitChar_toNat k hk]
  omega

theorem natDigits_ne_nil (n : Nat) : natDigits n ≠ [] := by
  unfold natDigits
  split <;> simp

theorem natDigits_all_digit (n : Nat) : ∀ c ∈ natDigits n, isDigitC c = true := by
  induction n using natDigits.induct with
  | case1 n hlt =>
      intro c hc
      rw [natDigits, dif_pos hlt] at hc
      simp at hc
      subst hc
      exact isDigitC_digitChar n hlt
  | case2 n hlt ih =>
      intro c hc
      rw [natDigits, dif_neg hlt] at hc
      rw [List.mem_append] at hc
      rcases hc with hc | hc
      · exact ih c hc
      · simp at hc
        subst hc
        exact isDigitC_digitChar (n % 10) (Nat.mod_lt _ (by omega))

theorem parseNatGo_digits (ds : List Char) :
    ∀ (acc : Nat) (rest : List Char), (∀ c ∈ ds, isDigitC c = true) →
    parseNatGo (ds ++ rest) acc =
      parseNatGo rest (ds.foldl (fun a c => a * 10 + (c.toNat - 0x30)) acc) := by
  induction ds with
  | nil => intro acc rest _; rfl
  | cons d ds' ih =>
      intro acc rest hds
      show (if isDigitC d = true then
          parseNatGo (ds' ++ rest) (acc * 10 + (d.toNat - 0x30))
        else (acc, d :: (ds' ++ rest))) = _
      rw [if_pos (hds d (by simp))]
      rw [ih _ rest (fun c hc => hds c (by simp [hc]))]
      rw [List.foldl_cons]

theorem parseNatGo_stop (cs : List Char) (acc : Nat) (h : headNotDigit cs = true) :
    parseNatGo cs acc = (acc, cs) := by
  cases cs with
  | nil => rfl
  | cons c t =>
      simp only [headNotDigit, Bool.not_eq_true'] at h
      unfold parseNatGo
      rw [if_neg (by simp [h])]

theorem foldl_natDigits (n : Nat) :
    ∀ acc : Nat, (natDigits n).foldl (fun a c => a * 10 + (c.toNat - 0x30)) acc =
      acc * 10 ^ (natDigits n).length + n := by
  induction n using natDigits.induct with
  | case1 n hlt =>
      intro acc
      rw [natDigits, dif_pos hlt]
      simp only [List.foldl_cons, List.foldl_nil, List.length_singleton,
        Nat.pow_one]
      rw [digitChar_toNat n hlt]
      omega
  | case2 n hlt ih =>
      intro acc
      rw [natDigits, dif_neg hlt]
      rw [List.foldl_append, ih acc]
      simp only [List.foldl_cons, List.foldl_nil, List.length_append,
        List.length_singleton]
      rw [digitChar_toNat (n % 10) (Nat.mod_lt _ (by omega))]
      rw [Nat.add_sub_cancel_left, Nat.pow_succ, ← Nat.mul_assoc]
      generalize acc * 10 ^ (natDigits (n / 10)).length = A
      omega

theorem parseNatL_print (n : Nat) (rest : List Char)
    (h : headNotDigit rest = true) :
    parseNatL (natDigits n ++ rest) = some (n, rest) := by
  obtain ⟨d, ds, hds⟩ := List.exists_cons_of_ne_nil (natDigits_ne_nil n)
  have hd : isDigitC d = true := by
    apply natDigits_all_digit n
    rw [hds]; simp
  rw [hds]
  show (if isDigitC d = true then some (parseNatGo (d :: (ds ++ rest)) 0)
    else none) = some (n, rest)
  rw [if_pos hd]
  have hgo := parseNatGo_digits (natDigits n) 0 rest (natDigits_all_digit n)
  rw [hds] at hgo
  simp only [List.cons_append] at hgo
  rw [hgo, parseNatGo_stop rest _ h]
  rw [show (d :: ds) = natDigits n from hds.symm, foldl_natDigits n 0]
  simp

theorem pStrField_print (lit : List Char) (s : String) (rest : List Char)
    (h : isPlainStr s = true) :
    pStrField lit (lit ++ (printStr s ++ rest)) = some (s, rest) := by
  unfold pStrField
  rw [expectL_append]
  exact parseStrL_print s rest h

theorem pNatField_print (lit : List Char) (n : Nat) (rest : List Char)
    (h : headNotDigit rest = true) :
    pNatField lit (lit ++ (natDigits n ++ rest)) = some (n, rest) := by
  unfold pNatField
  rw [expectL_append]
  exact parseNatL_print n rest h

theorem headNotDigit_tagBox (X : List Char) :
    headNotDigit (",\"leitnerBox\":".data ++ X) = true := rfl

theorem headNotDigit_tagNext (X : List Char) :
    headNotDigit (",\"nextReview\":".data ++ X) = true := rfl

theorem headNotDigit_tagBrace (X : List Char) :
    headNotDigit ("\x7d".data ++ X) = true := rfl

theorem parseStrListAux_print :
    ∀ (ss : List String) (fuel : Nat) (rest : List Char), ss ≠ [] →
    ss.length ≤ fuel → (∀ s ∈ ss, isPlainStr s = true) →
    parseStrListAux fuel
      (List.flatten ((ss.map printStr).intersperse [',']) ++ ']' :: rest) =
      some (ss, rest) := by
  intro ss
  induction ss with
  | nil => intro fuel rest hne; exact absurd rfl hne
  | cons s ss' ih =>
      intro fuel rest _ hfuel hp
      cases fuel with
      | zero => simp at hfuel
      | succ f =>
          cases ss' with
          | nil =>
              have hshape : List.flatten (([s].map printStr).intersperse [','])
                  ++ ']' :: rest = printStr s ++ ']' :: rest := by simp
              rw [hshape]
              have hps := parseStrL_print s (']' :: rest) (hp s (by simp))
              unfold parseStrListAux
              rw [hps]
              rfl
          | cons s2 ss'' =>
              have hshape :
                  List.flatten (((s :: s2 :: ss'').map printStr).intersperse [','])
                    ++ ']' :: rest =
                  printStr s ++ (',' ::
                    (List.flatten (((s2 :: ss'').map printStr).intersperse [','])
                      ++ ']' :: rest)) := by
                simp [List.intersperse_cons₂, List.append_assoc]
              rw [hshape]
              have hps := parseStrL_print s
                (',' :: (List.flatten (((s2 :: ss'').map printStr).intersperse [','])
                  ++ ']' :: rest)) (hp s (by simp))
              unfold parseStrListAux
              rw [hps]
              show (match parseStrListAux f
                    (List.flatten (((s2 :: ss'').map printStr).intersperse [','])
                      ++ ']' :: rest) with
                  | none => none
                  | some (ss, rest3) => some (s :: ss, rest3)) =
                some (s :: s2 :: ss'', rest)
              rw [ih f rest (by simp) (by simpa using hfuel)
                (fun x hx => hp x (by simp [hx]))]

theorem length_le_flatten_inter_str (ss : List String) :
    ss.length ≤ (List.flatten ((ss.map printStr).intersperse [','])).length := by
  induction ss with
  | nil => simp
  | cons s ss' ih =>
      cases ss' with
      | nil => simp [printStr]
      | cons s2 ss'' =>
          simp only [List.map_cons, List.intersperse_cons₂, List.flatten_cons,
            List.length_append, List.length_cons] at ih ⊢
          have hs : (printStr s).length = s.data.length + 2 := by simp [printStr]
          omega

theorem parseStrListL_print (ss : List String) (rest : List Char)
    (hp : ∀ s ∈ ss, isPlainStr s = true) :
    parseStrListL (printStrList ss ++ rest) = some (ss, rest) := by
  cases ss with
  | nil => rfl
  | cons s ss' =>
      have hshape : printStrList (s :: ss') ++ rest =
          '[' :: (List.flatten (((s :: ss').map printStr).intersperse [','])
            ++ ']' :: rest) := by
        simp [printStrList, List.append_assoc]
      rw [hshape]
      obtain ⟨Y, hY⟩ : ∃ Y,
          List.flatten (((s :: ss').map printStr).intersperse [','])
            ++ ']' :: rest = '"' :: Y := by
        cases ss' <;> exact ⟨_, rfl⟩
      unfold parseStrListL
      rw [hY]
      show parseStrListAux (('"' :: Y).length + 1) ('"' :: Y) =
        some (s :: ss', rest)
      rw [← hY]
      apply parseStrListAux_print (s :: ss') _ rest (by simp) ?_ hp
      have hb := length_le_flatten_inter_str (s :: ss')
      simp only [List.length_cons] at hb ⊢
      simp only [List.length_append, List.length_cons]
      omega

theorem pStrListField_print (lit : List Char) (ss : List String) (rest : List Char)
    (hp : ∀ s ∈ ss, isPlainStr s = true) :
    pStrListField lit (lit ++ (printStrList ss ++ rest)) = some (ss, rest) := by
  unfold pStrListField
  rw [expectL_append]
  exact parseStrListL_print ss rest hp

theorem parseWordL_print (w : SavedWord) (rest : List Char)
    (h : plainWord w = true) :
    parseWordL (printWord w ++ rest) = some (w, rest) := by
  simp only [plainWord, Bool.and_eq_true, List.all_eq_true] at h
  obtain ⟨⟨⟨⟨⟨hid, hwd⟩, htr⟩, hdf⟩, hsy⟩, hcx⟩ := h
  have hshape : printWord w ++ rest =
      "\x7b\"id\":".data ++ (printStr w.id ++
      (",\"word\":".data ++ (printStr w.word ++
      (",\"translation\":".data ++ (printStr w.translation ++
      (",\"definition\":".data ++ (printStr w.definition ++
      (",\"synonyms\":".data ++ (printStrList w.synonyms ++
      (",\"context\":".data ++ (printStr w.context ++
      (",\"timestamp\":".data ++ (natDigits w.timestamp ++
      (",\"leitnerBox\":".data ++ (natDigits w.leitnerBox ++
      (",\"nextReview\":".data ++ (natDigits w.nextReview ++
      ("\x7d".data ++ rest)))))))))))))))))) := by
    simp only [printWord, List.append_assoc]
  rw [hshape]
  have E1 : ∀ (lit r : List Char),
      pStrField lit (lit ++ (printStr w.id ++ r)) = some (w.id, r) :=
    fun lit r => pStrField_print lit _ r hid
  have E2 : ∀ (lit r : List Char),
      pStrField lit (lit ++ (printStr w.word ++ r)) = some (w.word, r) :=
    fun lit r => pStrField_print lit _ r hwd
  have E3 : ∀ (lit r : List Char),
      pStrField lit (lit ++ (printStr w.translation ++ r)) =
        some (w.translation, r) :=
    fun lit r => pStrField_print lit _ r htr
  have E4 : ∀ (lit r : List Char),
      pStrField lit (lit ++ (printStr w.definition ++ r)) =
        some (w.definition, r) :=
    fun lit r => pStrField_print lit _ r hdf
  have E5 : ∀ (lit r : List Char),
      pStrListField lit (lit ++ (printStrList w.synonyms ++ r)) =
        some (w.synonyms, r) :=
    fun lit r => pStrListField_print lit _ r hsy
  have E6 : ∀ (lit r : List Char),
      pStrField lit (lit ++ (printStr w.context ++ r)) = some (w.context, r) :=
    fun lit r => pStrField_print lit _ r hcx
  have E7 : ∀ (lit X : List Char),
      pNatField lit (lit ++ (natDigits w.timestamp ++
        (",\"leitnerBox\":".data ++ X))) =
      some (w.timestamp, ",\"leitnerBox\":".data ++ X) :=
    fun lit X => pNatField_print lit _ _ (headNotDigit_tagBox X)
  have E8 : ∀ (lit X : List Char),
      pNatField lit (lit ++ (natDigits w.leitnerBox ++
        (",\"nextReview\":".data ++ X))) =
      some (w.leitnerBox, ",\"nextReview\":".data ++ X) :=
    fun lit X => pNatField_print lit _ _ (headNotDigit_tagNext X)
  have E9 : ∀ (lit X : List Char),
      pNatField lit (lit ++ (natDigits w.nextReview ++ ("\x7d".data ++ X))) =
      some (w.nextReview, "\x7d".data ++ X) :=
    fun lit X => pNatField_print lit _ _ (headNotDigit_tagBrace X)
  simp only [parseWordL, parseWordHead, parseWordNums,
    E1, E2, E3, E4, E5, E6, E7, E8, E9, expectL_append]

theorem parseWordsAux_print :
    ∀ (l : List SavedWord) (fuel : Nat) (rest : List Char), l ≠ [] →
    l.length ≤ fuel → plainWords l = true →
    parseWordsAux fuel
      (List.flatten ((l.map printWord).intersperse [',']) ++ ']' :: rest) =
      some (l, rest) := by
  intro l
  induction l with
  | nil => intro fuel rest hne; exact absurd rfl hne
  | cons w l' ih =>
      intro fuel rest _ hfuel hp
      simp only [plainWords, List.all_cons, Bool.and_eq_true] at hp
      cases fuel with
      | zero => simp at hfuel
      | succ f =>
          cases l' with
          | nil =>
              have hshape : List.flatten (([w].map printWord).intersperse [','])
                  ++ ']' :: rest = printWord w ++ ']' :: rest := by simp
              rw [hshape]
              have hpw := parseWordL_print w (']' :: rest) hp.1
              unfold parseWordsAux
              rw [hpw]
              rfl
          | cons w2 l'' =>
              have hshape :
                  List.flatten (((w :: w2 :: l'').map printWord).intersperse [','])
                    ++ ']' :: rest =
                  printWord w ++ (',' ::
                    (List.flatten (((w2 :: l'').map printWord).intersperse [','])
                      ++ ']' :: rest)) := by
                simp [List.intersperse_cons₂, List.append_assoc]
              rw [hshape]
              have hpw := parseWordL_print w
                (',' :: (List.flatten (((w2 :: l'').map printWord).intersperse [','])
                  ++ ']' :: rest)) hp.1
              unfold parseWordsAux
              rw [hpw]
              show (match parseWordsAux f
                    (List.flatten (((w2 :: l'').map printWord).intersperse [','])
                      ++ ']' :: rest) with
                  | none => none
                  | some (ws, rest3) => some (w :: ws, rest3)) =
                some (w :: w2 :: l'', rest)
              rw [ih f rest (by simp) (by simpa using hfuel)
                (by simp [plainWords, hp.2])]

theorem printWord_cons (w : SavedWord) : ∃ t, printWord w = '\x7b' :: t := by
  have h : ("\x7b\"id\":".data : List Char) = '\x7b' :: "\"id\":".data := rfl
  rw [printWord, h]
  simp only [List.cons_append, List.append_assoc]
  exact ⟨_, rfl⟩

theorem printWord_length_pos (w : SavedWord) : 0 < (printWord w).length := by
  obtain ⟨t, ht⟩ := printWord_cons w
  rw [ht]
  simp

theorem length_le_flatten_inter_word (l : List SavedWord) :
    l.length ≤ (List.flatten ((l.map printWord).intersperse [','])).length := by
  induction l with
  | nil => simp
  | cons w l' ih =>
      cases l' with
      | nil =>
          simpa using printWord_length_pos w
      | cons w2 l'' =>
          simp only [List.map_cons, List.intersperse_cons₂, List.flatten_cons,
            List.length_append, List.length_cons] at ih ⊢
          have hw := printWord_length_pos w
          omega

theorem parseWords_print (l : List SavedWord) (h : plainWords l = true) :
    parseWords (stringifyWords l) = some l := by
  cases l with
  | nil => rfl
  | cons w l' =>
      have hdata : (stringifyWords (w :: l')).data =
          '[' :: (List.flatten (((w :: l').map printWord).intersperse [','])
            ++ ']' :: []) := rfl
      obtain ⟨Y, hY⟩ : ∃ Y,
          List.flatten (((w :: l').map printWord).intersperse [','])
            ++ ']' :: [] = '\x7b' :: Y := by
        obtain ⟨t, ht⟩ := printWord_cons w
        cases l' <;> simp [ht]
      unfold parseWords
      rw [hdata, hY]
      show (match parseWordsAux (('\x7b' :: Y).length + 1) ('\x7b' :: Y) with
          | some (ws, []) => some ws
          | _ => none) = some (w :: l')
      rw [← hY]
      rw [parseWordsAux_print (w :: l') _ [] (by simp) ?_ h]
      have hb := length_le_flatten_inter_word (w :: l')
      simp only [List.length_cons] at hb ⊢
      simp only [List.length_append, List.length_cons]
      omega

/-- **C6 counterexample.** A present but corrupt payload does not load as the
empty list: the parse fails and the failure propagates (the application
throws), contradicting the claim that corrupt data yields an empty list
rather than failing. -/
theorem persistence_load_counterexample :
    loadSavedWords (some "corrupt") = none ∧
    ¬ loadSavedWords (some "corrupt") = some [] := by
  refine ⟨rfl, by simp [loadSavedWords, parseWords]⟩

/-- **C6 amended.** The load-on-start yields the stored list when the payload
is present and valid (any serialized word list with escape-free string fields
parses back to exactly that list), and yields the empty list when the stored
data is missing or is the empty string — but a present, non-empty, corrupt
payload makes the JSON parse fail and the failure propagates instead of
being recovered as an empty list. -/
theorem persistence_load_amended :
    loadSavedWords none = some [] ∧
    loadSavedWords (some "") = some [] ∧
    (∀ l : List SavedWord, plainWords l = true →
       loadSavedWords (some (stringifyWords l)) = some l) ∧
    loadSavedWords (some "corrupt") = none := by
  refine ⟨rfl, rfl, ?_, rfl⟩
  intro l hl
  have hne : (stringifyWords l).data ≠ [] := by
    show ('[' :: _) ≠ []
    simp
  show (if (stringifyWords l).data = [] then some []
    else parseWords (stringifyWords l)) = some l
  rw [if_neg hne]
  exact parseWords_print l hl

/-- Witness for C6 amended at a concrete input: a one-word store survives the
save/load round trip. -/
theorem persistence_load_amended_witness :
    loadSavedWords (some (stringifyWords
      [{ id := "u1", word := "hello", translation := "hi", definition := "d"
         synonyms := ["hey"], context := "c", timestamp := 12, leitnerBox := 3
         nextReview := 45 }])) =
    some [{ id := "u1", word := "hello", translation := "hi", definition := "d"
            synonyms := ["hey"], context := "c", timestamp := 12, leitnerBox := 3
            nextReview := 45 }] := by
  exact persistence_load_amended.2.2.1 _ (by decide)

end ReadingEcology
